import Mathlib

/-!
Verification of the simple-calculators library (src/rust/src/lib.rs).

The Rust source is shallowly embedded below.  Machine integers (`i32`) are
modelled as `Int` together with explicit wrapping through `wrap32`,
matching the release-mode (wrapping) semantics the wasm build ships with;
`usize`/`u32` casts from floats are modelled by their saturating behaviour.
Rust strings of binary digits are modelled as `List Char`.  The `f64`
latitude/longitude inputs of the UTM functions are modelled as exact
rationals: every operation those functions perform (comparison, addition
of small integer constants, division by 8 or 6, floor) is exact on the
concrete dyadic inputs considered, and the branching structure under
verification does not depend on rounding.
-/

set_option maxHeartbeats 1000000

deriving instance DecidableEq for Except

/-- The error kinds of `std::num::ParseIntError` that can arise from
`i32::from_str_radix` on the call sites in this library. -/
inductive ParseIntErrorKind where
  | empty
  | invalidDigit
  | posOverflow
deriving DecidableEq

/-- Embedding of `enum TwosComplementError` from the source. -/
inductive TwosComplementError where
  | InvalidInput
  | ParseError (kind : ParseIntErrorKind)
  | InvalidSize
  | OverflowError
deriving DecidableEq

/-- `c == '0' || c == '1'`, the digit test used by the source. -/
def is_bit (c : Char) : Bool := c = '0' || c = '1'

/-- Numeric value of a most-significant-bit-first binary digit string. -/
def binVal : List Char → Nat
  | [] => 0
  | c :: t => (if c = '1' then 1 else 0) * 2 ^ t.length + binVal t

/-- Embedding of the bit inversion `map(|bit| if bit == '0' { '1' } else { '0' })`. -/
def invertBits (s : List Char) : List Char :=
  s.map (fun bit => if bit = '0' then '1' else '0')

def i32max : Int := 2 ^ 31 - 1

def i32min : Int := -(2 ^ 31)

/-- Reduction of an integer into the `i32` value range, i.e. the value of the
32-bit two's complement bit pattern of `x`.  Wrapping Rust arithmetic on `i32`
is modelled by applying `wrap32` after each exact operation. -/
def wrap32 (x : Int) : Int := (x + 2 ^ 31) % 2 ^ 32 - 2 ^ 31

/-- The `u32` bit pattern of an `i32` value, as a natural number. -/
def toUnsigned32 (x : Int) : Nat := (x % 2 ^ 32).toNat

/-- Embedding of `i32::from_str_radix(s, 2)` for the strings this library feeds
it (no sign characters ever occur at the call sites): empty strings and
non-binary digits are rejected, and a value above `i32::MAX` is a positive
overflow.  Negative overflow cannot occur without a leading minus sign. -/
def from_str_radix_2 (s : List Char) : Except ParseIntErrorKind Int :=
  if s.isEmpty then .error .empty
  else if s.all is_bit then
    if (binVal s : Int) > i32max then .error .posOverflow
    else .ok (binVal s)
  else .error .invalidDigit

/-- Embedding of `calculate_twos_complement_rust`.  The `i32` additions and
negations of the source are wrapped through `wrap32`. -/
def calculate_twos_complement_rust (binary_input : List Char) :
    Except TwosComplementError Int :=
  if binary_input.isEmpty || !(binary_input.all is_bit) then
    .error .InvalidInput
  else if binary_input.head? = some '1' then
    match from_str_radix_2 (invertBits binary_input) with
    | .ok val => .ok (wrap32 (-(wrap32 (val + 1))))
    | .error e => .error (.ParseError e)
  else
    match from_str_radix_2 binary_input with
    | .ok val => .ok val
    | .error e => .error (.ParseError e)

/-- Fuel-indexed conversion of a natural number to its binary digit string,
most significant bit first; `natToBinAux n n` is the digit string of `n ≠ 0`. -/
def natToBinAux : Nat → Nat → List Char
  | 0, _ => []
  | fuel + 1, n =>
    if n = 0 then []
    else natToBinAux fuel (n / 2) ++ [if n % 2 = 1 then '1' else '0']

/-- Binary digit string of a natural number (`"0"` for zero), as produced by
Rust's `{:b}` formatting of the corresponding bit pattern. -/
def natToBin (n : Nat) : List Char :=
  if n = 0 then ['0'] else natToBinAux n n

/-- Embedding of `format!("{:0>width$b}", x)` on an `i32` value `x`: the binary
digits of the 32-bit pattern of `x`, left-padded with `'0'` to `width`
characters (never truncated). -/
def fmtBin (x : Int) (width : Nat) : List Char :=
  List.replicate (width - (natToBin (toUnsigned32 x)).length) '0'
    ++ natToBin (toUnsigned32 x)

/-- Embedding of `let max_positive = (1 << (size - 1)) - 1;` with release-mode
semantics: the shift amount is masked modulo 32 and the subtraction wraps. -/
def max_positive (size : Nat) : Int :=
  wrap32 (wrap32 (2 ^ ((size - 1) % 32)) - 1)

/-- Embedding of `let min_negative = -(1 << (size - 1));` with release-mode
(wrapping) semantics. -/
def min_negative (size : Nat) : Int :=
  wrap32 (-(wrap32 (2 ^ ((size - 1) % 32))))

/-- Embedding of `decimal_to_twos_complement_rust`. -/
def decimal_to_twos_complement_rust (decimal : Int) (size : Nat) :
    Except TwosComplementError (List Char) :=
  if size ≤ 0 then .error .InvalidSize
  else if decimal > max_positive size ∨ decimal < min_negative size then
    .error .OverflowError
  else if decimal ≥ 0 then
    .ok (fmtBin decimal size)
  else
    match from_str_radix_2 (invertBits (fmtBin (wrap32 (-decimal)) size)) with
    | .ok val => .ok (fmtBin (wrap32 (val + 1)) size)
    | .error e => .error (.ParseError e)

/-! ### UTM zone and MGRS band resolver -/

/-- Embedding of `enum UTMZoneError`; the `f64` payloads are modelled as
exact rationals. -/
inductive UTMZoneError where
  | InvalidLongitude (value : ℚ)
  | InvalidLatitude (value : ℚ)
  | CalculationError (message : String)
deriving DecidableEq

/-- Result of running a Rust function that may return normally, return an
error, or crash (abort on an out-of-bounds index). -/
inductive RustResult (ε : Type) (α : Type) where
  | crashed
  | err (e : ε)
  | ok (a : α)
deriving DecidableEq

/-- Rust `as u32` on a (floored) `f64` value: saturating conversion. -/
def castU32 (x : Int) : Nat := if x < 0 then 0 else min x.toNat (2 ^ 32 - 1)

/-- Rust `as usize` on a (floored) `f64` value on the wasm32 target
(`usize` is 32 bits there): saturating conversion. -/
def castUsize (x : Int) : Nat := if x < 0 then 0 else min x.toNat (2 ^ 32 - 1)

/-- Embedding of `('C'..='X').filter(|&c| c != 'I' && c != 'O')`. -/
def bands : List Char :=
  ((List.range 22).map (fun i => Char.ofNat ('C'.toNat + i))).filter
    (fun c => c != 'I' && c != 'O')

/-- Embedding of `get_mgrs_latitude_band`.  An out-of-bounds `bands[index]`
is a Rust abort, modelled by `RustResult.crashed`. -/
def get_mgrs_latitude_band (latitude : ℚ) : RustResult UTMZoneError Char :=
  if latitude < -80 ∨ latitude ≥ 84 then .err (.InvalidLatitude latitude)
  else
    match bands[castUsize (Rat.floor ((latitude + 80) / 8))]? with
    | some c => .ok c
    | none => .crashed

/-- Embedding of the `zone_number` expression inside `calculate_utm_zone`
(factored out so theorems can speak about the computed zone number). -/
def zone_number_calc (latitude longitude : ℚ) : Nat :=
  if 55 < latitude ∧ latitude < 64 ∧ 2 < longitude ∧ longitude < 6 then 32
  else if 71 < latitude ∧ 6 ≤ longitude ∧ longitude < 9 then 31
  else if 71 < latitude ∧
      (9 ≤ longitude ∧ longitude < 12 ∨ 18 ≤ longitude ∧ longitude < 21) then 33
  else if 71 < latitude ∧
      (21 ≤ longitude ∧ longitude < 24 ∨ 30 ≤ longitude ∧ longitude < 33) then 35
  else castU32 (Rat.floor ((longitude + 180) / 6)) % 60 + 1


/-- Embedding of `calculate_utm_zone`. -/
def calculate_utm_zone (latitude longitude : ℚ) :
    RustResult UTMZoneError (Nat × Char) :=
  if latitude < -90 ∨ 90 < latitude then .err (.InvalidLatitude latitude)
  else if longitude < -180 ∨ 180 < longitude then .err (.InvalidLongitude longitude)
  else
    match get_mgrs_latitude_band latitude with
    | .ok band => .ok (zone_number_calc latitude longitude, band)
    | .err e => .err e
    | .crashed => .crashed


/-- The zone-number formula exactly as the specification states it (used to
compare the implementation against the spec in the C4 theorem): the four
exception rules, then `floor((longitude+180)/6) mod 60 + 1`. -/
def specZone (lat lon : ℚ) : Int :=
  if 55 < lat ∧ lat < 64 ∧ 2 < lon ∧ lon < 6 then 32
  else if 71 < lat ∧ 6 ≤ lon ∧ lon < 9 then 31
  else if 71 < lat ∧ (9 ≤ lon ∧ lon < 12 ∨ 18 ≤ lon ∧ lon < 21) then 33
  else if 71 < lat ∧ (21 ≤ lon ∧ lon < 24 ∨ 30 ≤ lon ∧ lon < 33) then 35
  else ⌊(lon + 180) / 6⌋ % 60 + 1

/-! ### Arithmetic facts about the embedding -/

theorem wrap32_eq_self {x : Int} (h1 : i32min ≤ x) (h2 : x ≤ i32max) :
    wrap32 x = x := by
  unfold wrap32 i32min i32max at *
  omega

theorem wrap32_neg_wrap32 {t : Int} (h1 : 0 ≤ t) (h2 : t ≤ 2 ^ 31) :
    wrap32 (-(wrap32 t)) = -t := by
  unfold wrap32
  omega

theorem toUnsigned32_wrap32 (x : Int) :
    toUnsigned32 (wrap32 x) = toUnsigned32 x := by
  unfold toUnsigned32 wrap32
  omega

theorem toUnsigned32_of_nonneg {x : Int} (h1 : 0 ≤ x) (h2 : x < 2 ^ 32) :
    toUnsigned32 x = x.toNat := by
  unfold toUnsigned32
  omega

theorem max_min_eq (size : Nat) :
    max_positive size = 2 ^ ((size - 1) % 32) - 1 ∧
      min_negative size = -(2 ^ ((size - 1) % 32)) := by
  have hk : (size - 1) % 32 ≤ 31 := by omega
  have hp1 : (0 : Int) < 2 ^ ((size - 1) % 32) := pow_pos (by norm_num) _
  have hp2 : (2 : Int) ^ ((size - 1) % 32) ≤ 2 ^ 31 :=
    pow_le_pow_right₀ (by norm_num) hk
  unfold max_positive min_negative wrap32
  constructor <;> omega

/-! ### Facts about binary digit strings -/

theorem binVal_append (a b : List Char) :
    binVal (a ++ b) = binVal a * 2 ^ b.length + binVal b := by
  induction a with
  | nil => simp [binVal]
  | cons c t ih =>
    simp only [List.cons_append, binVal, List.append_eq, List.length_append, ih]
    ring

theorem binVal_lt (s : List Char) : binVal s < 2 ^ s.length := by
  induction s with
  | nil => simp [binVal]
  | cons c t ih =>
    simp only [binVal, List.length_cons, pow_succ]
    rcases em (c = '1') with h | h <;> simp [h] <;> omega

theorem binVal_replicate_zero (k : Nat) :
    binVal (List.replicate k '0') = 0 := by
  induction k with
  | zero => rfl
  | succ n ih => simp [List.replicate_succ, binVal, ih]

theorem invertBits_length (s : List Char) :
    (invertBits s).length = s.length := by
  simp [invertBits]

theorem invertBits_all_bits (s : List Char) :
    (invertBits s).all is_bit = true := by
  simp only [invertBits, List.all_map, List.all_eq_true]
  intro c _
  rcases em (c = '0') with h | h <;> simp [h, is_bit]

theorem binVal_invertBits {s : List Char} (h : s.all is_bit = true) :
    binVal s + binVal (invertBits s) + 1 = 2 ^ s.length := by
  induction s with
  | nil => simp [binVal, invertBits]
  | cons c t ih =>
    simp only [List.all_cons, Bool.and_eq_true] at h
    have hih := ih h.2
    have hc : c = '0' ∨ c = '1' := by
      have := h.1
      simp only [is_bit, Bool.or_eq_true, decide_eq_true_eq] at this
      exact this
    have hlen : (invertBits t).length = t.length := invertBits_length t
    have hinv : invertBits (c :: t)
        = (if c = '0' then '1' else '0') :: invertBits t := rfl
    rcases hc with hc | hc
    · subst hc
      rw [hinv]
      simp [binVal, hlen, pow_succ]
      omega
    · subst hc
      rw [hinv]
      simp [binVal, hlen, pow_succ]
      omega

theorem binVal_head_one {t : List Char} :
    binVal ('1' :: t) = 2 ^ t.length + binVal t := by
  simp [binVal]

theorem binVal_head_zero {t : List Char} :
    binVal ('0' :: t) = binVal t := by
  simp [binVal]

/-! ### Facts about `natToBin` -/

theorem natToBinAux_binVal :
    ∀ fuel n, n ≤ fuel → binVal (natToBinAux fuel n) = n := by
  intro fuel
  induction fuel with
  | zero =>
    intro n hn
    interval_cases n
    rfl
  | succ f ih =>
    intro n hn
    rcases em (n = 0) with h0 | h0
    · simp [natToBinAux, h0, binVal]
    · have hdiv : n / 2 ≤ f := by omega
      rw [natToBinAux, if_neg h0, binVal_append, ih (n / 2) hdiv]
      rcases em (n % 2 = 1) with h2 | h2 <;> simp [h2, binVal] <;> omega

theorem natToBinAux_length_le_iff :
    ∀ fuel n k, n ≤ fuel → ((natToBinAux fuel n).length ≤ k ↔ n < 2 ^ k) := by
  intro fuel
  induction fuel with
  | zero =>
    intro n k hn
    interval_cases n
    simp [natToBinAux, Nat.two_pow_pos]
  | succ f ih =>
    intro n k hn
    rcases em (n = 0) with h0 | h0
    · simp [natToBinAux, h0, Nat.two_pow_pos]
    · rw [natToBinAux, if_neg h0]
      have hdiv : n / 2 ≤ f := by omega
      rcases k with _ | j
      · constructor
        · intro hlen
          exfalso
          rw [List.length_append, List.length_singleton] at hlen
          omega
        · intro hlt
          exfalso
          simp only [pow_zero] at hlt
          omega
      · rw [List.length_append, List.length_singleton]
        have hiff := ih (n / 2) j hdiv
        constructor
        · intro h
          have : n / 2 < 2 ^ j := hiff.mp (by omega)
          have : n < 2 ^ j * 2 := by omega
          rw [pow_succ]
          omega
        · intro h
          rw [pow_succ] at h
          have : n / 2 < 2 ^ j := by omega
          have := hiff.mpr this
          omega

theorem binVal_natToBin (n : Nat) : binVal (natToBin n) = n := by
  unfold natToBin
  rcases em (n = 0) with h | h
  · simp [h, binVal]
  · rw [if_neg h]
    exact natToBinAux_binVal n n le_rfl

theorem natToBin_length_le_iff {n : Nat} (h : n ≠ 0) (k : Nat) :
    ((natToBin n).length ≤ k ↔ n < 2 ^ k) := by
  unfold natToBin
  rw [if_neg h]
  exact natToBinAux_length_le_iff n n k le_rfl

theorem natToBin_zero : natToBin 0 = ['0'] := rfl

theorem natToBin_length_pos (n : Nat) : 1 ≤ (natToBin n).length := by
  rcases em (n = 0) with h | h
  · simp [h, natToBin]
  · by_contra hc
    have : (natToBin n).length ≤ 0 := by omega
    have := (natToBin_length_le_iff h 0).mp this
    simp at this
    omega

theorem natToBinAux_all_bits :
    ∀ fuel n, (natToBinAux fuel n).all is_bit = true := by
  intro fuel
  induction fuel with
  | zero => intro n; rfl
  | succ f ih =>
    intro n
    rcases em (n = 0) with h0 | h0
    · simp [natToBinAux, h0]
    · rw [natToBinAux, if_neg h0]
      simp only [List.all_append, Bool.and_eq_true]
      refine ⟨ih (n / 2), ?_⟩
      rcases em (n % 2 = 1) with h2 | h2 <;> simp [h2, is_bit]

theorem natToBin_all_bits (n : Nat) : (natToBin n).all is_bit = true := by
  unfold natToBin
  rcases em (n = 0) with h | h
  · rw [if_pos h]
    decide
  · rw [if_neg h]
    exact natToBinAux_all_bits n n

/-! ### Facts about `fmtBin` -/

theorem fmtBin_length (x : Int) (w : Nat) :
    (fmtBin x w).length = max w (natToBin (toUnsigned32 x)).length := by
  simp [fmtBin]
  omega

theorem fmtBin_binVal (x : Int) (w : Nat) :
    binVal (fmtBin x w) = toUnsigned32 x := by
  rw [fmtBin, binVal_append, binVal_replicate_zero, binVal_natToBin]
  omega

theorem fmtBin_all_bits (x : Int) (w : Nat) :
    (fmtBin x w).all is_bit = true := by
  simp only [fmtBin, List.all_append, Bool.and_eq_true]
  constructor
  · simp only [List.all_eq_true]
    intro c hc
    rw [List.eq_of_mem_replicate hc]
    decide
  · exact natToBin_all_bits _

theorem fmtBin_ne_nil (x : Int) (w : Nat) : fmtBin x w ≠ [] := by
  intro h
  have hlen := congrArg List.length h
  rw [fmtBin_length] at hlen
  have hp := natToBin_length_pos (toUnsigned32 x)
  simp only [List.length_nil] at hlen
  omega


/-! ### The rational floor used by the embedding -/

theorem ratFloor_eq_intFloor (q : ℚ) : Rat.floor q = ⌊q⌋ := by
  rw [Rat.floor_def, Rat.floor_def']

example : bands = ['C','D','E','F','G','H','J','K','L','M','N','P','Q','R','S','T','U','V','W','X'] := by decide
example : get_mgrs_latitude_band 82 = .crashed := by
  simp only [get_mgrs_latitude_band, ratFloor_eq_intFloor]
  norm_num
  decide

example : get_mgrs_latitude_band 40 = .ok 'T' := by
  simp only [get_mgrs_latitude_band, ratFloor_eq_intFloor]
  norm_num
  decide

example : calculate_utm_zone 40 (-75) = .ok (18, 'T') := by
  simp only [calculate_utm_zone, get_mgrs_latitude_band, zone_number_calc,
    ratFloor_eq_intFloor]
  norm_num
  decide

example : calculate_utm_zone 60 5 = .ok (32, 'V') := by
  simp only [calculate_utm_zone, get_mgrs_latitude_band, zone_number_calc,
    ratFloor_eq_intFloor]
  norm_num
  decide

example : calculate_utm_zone 72 7 = .ok (31, 'X') := by
  simp only [calculate_utm_zone, get_mgrs_latitude_band, zone_number_calc,
    ratFloor_eq_intFloor]
  norm_num
  decide
example : calculate_twos_complement_rust ['1','1','0','1'] = .ok (-3) := by decide
example : decimal_to_twos_complement_rust 5 8 = .ok ['0','0','0','0','0','1','0','1'] := by decide
example : decimal_to_twos_complement_rust (-5) 8 = .ok ['1','1','1','1','1','0','1','1'] := by decide
example : decimal_to_twos_complement_rust (-1) 32 = .error (.ParseError .posOverflow) := by decide
/-! ### Helper lemmas for the codec proofs -/

theorem two_pow_mono {m n : Nat} (h : m ≤ n) : (2 : Nat) ^ m ≤ 2 ^ n :=
  Nat.pow_le_pow_right (by norm_num) h

theorem two_pow_le_iff {m n : Nat} : (2 : Nat) ^ m ≤ 2 ^ n ↔ m ≤ n := by
  constructor
  · intro h
    by_contra hc
    have h2 : n + 1 ≤ m := by omega
    have h3 := two_pow_mono h2
    have h4 : (2 : Nat) ^ n < 2 ^ (n + 1) := by
      rw [pow_succ]
      have := Nat.two_pow_pos n
      omega
    omega
  · exact two_pow_mono

theorem binVal_lt_of_len_le {s : List Char} {k : Nat} (h : s.length ≤ k) :
    binVal s < 2 ^ k :=
  lt_of_lt_of_le (binVal_lt s) (two_pow_mono h)

theorem isEmpty_false_of_ne_nil {s : List Char} (h : s ≠ []) :
    s.isEmpty = false := by
  cases s with
  | nil => exact absurd rfl h
  | cons c t => rfl

theorem from_str_radix_2_ok {s : List Char} (hne : s ≠ [])
    (hbits : s.all is_bit = true) (hsmall : binVal s ≤ 2 ^ 31 - 1) :
    from_str_radix_2 s = .ok (binVal s) := by
  rw [from_str_radix_2]
  rw [if_neg (by simp [isEmpty_false_of_ne_nil hne]), if_pos hbits,
    if_neg (by unfold i32max; omega)]

theorem from_str_radix_2_overflow {s : List Char} (hne : s ≠ [])
    (hbits : s.all is_bit = true) (hbig : 2 ^ 31 ≤ binVal s) :
    from_str_radix_2 s = .error .posOverflow := by
  rw [from_str_radix_2]
  rw [if_neg (by simp [isEmpty_false_of_ne_nil hne]), if_pos hbits,
    if_pos (by unfold i32max; omega)]

theorem head_ne_one_of_binVal_lt {s : List Char}
    (h : binVal s < 2 ^ (s.length - 1)) : ¬ s.head? = some '1' := by
  cases s with
  | nil => simp
  | cons c t =>
    intro hc
    simp only [List.head?_cons, Option.some_inj] at hc
    subst hc
    rw [binVal_head_one] at h
    simp only [List.length_cons, Nat.add_sub_cancel] at h
    omega

theorem head_eq_one_of_binVal_ge {s : List Char} (hbits : s.all is_bit = true)
    (hne : s ≠ []) (h : 2 ^ (s.length - 1) ≤ binVal s) : s.head? = some '1' := by
  cases s with
  | nil => exact absurd rfl hne
  | cons c t =>
    simp only [List.all_cons, Bool.and_eq_true] at hbits
    have hc : c = '0' ∨ c = '1' := by
      have := hbits.1
      simp only [is_bit, Bool.or_eq_true, decide_eq_true_eq] at this
      exact this
    rcases hc with hc | hc
    · subst hc
      rw [binVal_head_zero] at h
      simp only [List.length_cons, Nat.add_sub_cancel] at h
      have := binVal_lt t
      omega
    · subst hc
      rfl

/-- The decode function on a valid binary string of at most 32 characters:
both branches succeed and compute the claimed values. -/
theorem decode_eq {s : List Char} (hne : s ≠ []) (hbits : s.all is_bit = true)
    (hlen : s.length ≤ 32) :
    calculate_twos_complement_rust s =
      .ok (if s.head? = some '1' then -(binVal (invertBits s) : Int) - 1
           else (binVal s : Int)) := by
  rw [calculate_twos_complement_rust]
  rw [if_neg (by simp [isEmpty_false_of_ne_nil hne, hbits])]
  cases s with
  | nil => exact absurd rfl hne
  | cons c t =>
    have htlen : t.length ≤ 31 := by
      simp only [List.length_cons] at hlen
      omega
    simp only [List.all_cons, Bool.and_eq_true] at hbits
    have hc : c = '0' ∨ c = '1' := by
      have := hbits.1
      simp only [is_bit, Bool.or_eq_true, decide_eq_true_eq] at this
      exact this
    rcases hc with hc | hc
    · subst hc
      rw [if_neg (by simp)]
      rw [from_str_radix_2_ok (by simp)
        (by simp only [List.all_cons, Bool.and_eq_true]; exact ⟨rfl, hbits.2⟩)
        (by rw [binVal_head_zero]; have := binVal_lt_of_len_le htlen; omega)]
      rw [if_neg (by simp)]
    · subst hc
      rw [if_pos (by simp)]
      have hinv : invertBits ('1' :: t) = '0' :: invertBits t := rfl
      have hval : binVal (invertBits ('1' :: t)) = binVal (invertBits t) := by
        rw [hinv, binVal_head_zero]
      have hsmall : binVal (invertBits ('1' :: t)) ≤ 2 ^ 31 - 1 := by
        rw [hval]
        have h1 : (invertBits t).length ≤ 31 := by
          rw [invertBits_length]; exact htlen
        have := binVal_lt_of_len_le h1
        omega
      rw [from_str_radix_2_ok (by rw [hinv]; simp) (invertBits_all_bits _) hsmall]
      have hw : wrap32 (-(wrap32 ((binVal (invertBits ('1' :: t)) : Int) + 1)))
          = -(binVal (invertBits ('1' :: t)) : Int) - 1 := by
        rw [wrap32_neg_wrap32 (by omega) (by omega)]
        ring
      rw [if_pos (show ('1' :: t).head? = some '1' from rfl)]
      exact congrArg Except.ok hw

theorem natToBin_length_le {n k : Nat} (hn : n ≠ 0) (h : n < 2 ^ k) :
    (natToBin n).length ≤ k :=
  (natToBin_length_le_iff hn k).mpr h

theorem fmtBin_natCast_eq_natToBin {n w : Nat} (hn : n < 2 ^ 32)
    (hlen : (natToBin n).length = w) : fmtBin ((n : Int)) w = natToBin n := by
  rw [fmtBin]
  have hu : toUnsigned32 ((n : Int)) = n := by
    unfold toUnsigned32
    omega
  rw [hu, hlen, Nat.sub_self, List.replicate_zero, List.nil_append]

theorem natToBin_ne_nil (n : Nat) : natToBin n ≠ [] := by
  intro h
  have := natToBin_length_pos n
  rw [h] at this
  simp at this

/-- The non-negative branch of the encoder: an in-range `decimal ≥ 0` is
formatted directly. -/
theorem encode_nonneg {v : Int} {size : Nat} (hsz : 1 ≤ size) (h0 : 0 ≤ v)
    (hmax : v ≤ max_positive size) :
    decimal_to_twos_complement_rust v size = .ok (fmtBin v size) := by
  obtain ⟨hM, hm⟩ := max_min_eq size
  have hp : (0 : Int) < 2 ^ ((size - 1) % 32) := pow_pos (by norm_num) _
  rw [decimal_to_twos_complement_rust]
  rw [if_neg (by omega), if_neg (by push_neg; exact ⟨hmax, by rw [hm]; omega⟩),
    if_pos h0]

/-- The negative branch of the encoder, for an in-range negative `decimal`. -/
theorem encode_neg_branch {v : Int} {size : Nat} (hsz : 1 ≤ size)
    (hmax : v ≤ max_positive size) (hmin : min_negative size ≤ v) (hneg : v < 0) :
    decimal_to_twos_complement_rust v size =
      match from_str_radix_2 (invertBits (fmtBin (wrap32 (-v)) size)) with
      | .ok val => .ok (fmtBin (wrap32 (val + 1)) size)
      | .error e => .error (.ParseError e) := by
  rw [decimal_to_twos_complement_rust]
  rw [if_neg (by omega), if_neg (by push_neg; exact ⟨hmax, hmin⟩),
    if_neg (by omega)]

/-- Shape of the formatted magnitude string in the negative branch: when the
magnitude fits below the (masked) shift bound, the string has exactly `size`
characters and its value is the magnitude. -/
theorem fmtBin_neg_facts {v : Int} {size : Nat} (hsz : 1 ≤ size)
    (hv32 : i32min ≤ v) (hneg : v < 0)
    (hmk : (-v).toNat ≤ 2 ^ ((size - 1) % 32)) :
    (fmtBin (wrap32 (-v)) size).length = size ∧
      binVal (fmtBin (wrap32 (-v)) size) = (-v).toNat := by
  have hm1 : 1 ≤ (-v).toNat := by omega
  have hmU : toUnsigned32 (wrap32 (-v)) = (-v).toNat := by
    rw [toUnsigned32_wrap32]
    rw [toUnsigned32_of_nonneg (by omega) (by unfold i32min at hv32; omega)]
  have hk1 : (size - 1) % 32 + 1 ≤ size := by
    have := Nat.mod_le (size - 1) 32
    omega
  have hmlt : (-v).toNat < 2 ^ ((size - 1) % 32 + 1) := by
    rw [pow_succ]
    have := Nat.two_pow_pos ((size - 1) % 32)
    omega
  have hlen : (natToBin ((-v).toNat)).length ≤ size :=
    le_trans (natToBin_length_le (by omega) hmlt) hk1
  constructor
  · rw [fmtBin_length, hmU]
    omega
  · rw [fmtBin_binVal, hmU]

/-- Success of the encoder on an in-range negative input for widths up to 31:
the result is the binary string of `2 ^ size + v`, of length exactly `size`. -/
theorem encode_neg_ok {v : Int} {size : Nat} (hsz : 1 ≤ size) (hsz31 : size ≤ 31)
    (hmin : -((2 : Int) ^ (size - 1)) ≤ v) (hneg : v < 0) :
    decimal_to_twos_complement_rust v size
        = .ok (natToBin (2 ^ size - (-v).toNat)) ∧
      (natToBin (2 ^ size - (-v).toNat)).length = size := by
  have hmod : (size - 1) % 32 = size - 1 := Nat.mod_eq_of_lt (by omega)
  obtain ⟨hM, hm⟩ := max_min_eq size
  rw [hmod] at hM hm
  have hcast : ((2 : Int) ^ (size - 1)) = ((2 ^ (size - 1) : Nat) : Int) := by
    push_cast
    ring
  have hs1 : size - 1 + 1 = size := by omega
  have hX : (2 : Nat) ^ size = 2 * 2 ^ (size - 1) := by
    calc (2 : Nat) ^ size = 2 ^ (size - 1 + 1) := by rw [hs1]
    _ = 2 ^ (size - 1) * 2 := pow_succ 2 (size - 1)
    _ = 2 * 2 ^ (size - 1) := by ring
  have hPbound : (2 : Nat) ^ (size - 1) ≤ 2 ^ 30 := two_pow_mono (by omega)
  have hP1 : 1 ≤ (2 : Nat) ^ (size - 1) := Nat.two_pow_pos (size - 1)
  rw [hcast] at hmin
  have hpInt : (0 : Int) < 2 ^ (size - 1) := pow_pos (by norm_num) _
  have hmax : v ≤ max_positive size := by rw [hM]; omega
  have hminI : min_negative size ≤ v := by rw [hm, hcast]; omega
  have hv32 : i32min ≤ v := by unfold i32min; omega
  have hmk : (-v).toNat ≤ 2 ^ ((size - 1) % 32) := by rw [hmod]; omega
  obtain ⟨hblen, hbval⟩ := fmtBin_neg_facts hsz hv32 hneg hmk
  have hm1 : 1 ≤ (-v).toNat := by omega
  have hmP : (-v).toNat ≤ 2 ^ (size - 1) := by omega
  have hsum := binVal_invertBits (fmtBin_all_bits (wrap32 (-v)) size)
  rw [hblen, hbval] at hsum
  have hocne : invertBits (fmtBin (wrap32 (-v)) size) ≠ [] := by
    intro hnil
    have hl := congrArg List.length hnil
    rw [invertBits_length, hblen] at hl
    simp at hl
    omega
  have hocsmall : binVal (invertBits (fmtBin (wrap32 (-v)) size)) ≤ 2 ^ 31 - 1 := by
    omega
  have hr : binVal (invertBits (fmtBin (wrap32 (-v)) size)) + 1
      = 2 ^ size - (-v).toNat := by omega
  have hr1 : 2 ^ (size - 1) ≤ 2 ^ size - (-v).toNat := by omega
  have hr2 : 2 ^ size - (-v).toNat < 2 ^ size := by omega
  have hrne : 2 ^ size - (-v).toNat ≠ 0 := by omega
  have hbig : 2 ^ size - (-v).toNat < 2 ^ 32 := by omega
  have hrlen : (natToBin (2 ^ size - (-v).toNat)).length = size := by
    have hle : (natToBin (2 ^ size - (-v).toNat)).length ≤ size :=
      natToBin_length_le hrne hr2
    have hge : ¬ ((natToBin (2 ^ size - (-v).toNat)).length ≤ size - 1) := by
      intro hcon
      have := (natToBin_length_le_iff hrne (size - 1)).mp hcon
      omega
    omega
  refine ⟨?_, hrlen⟩
  rw [encode_neg_branch hsz hmax hminI hneg]
  rw [from_str_radix_2_ok hocne (invertBits_all_bits _) hocsmall]
  have hwr : wrap32 ((binVal (invertBits (fmtBin (wrap32 (-v)) size)) : Int) + 1)
      = ((2 ^ size - (-v).toNat : Nat) : Int) := by
    rw [show ((binVal (invertBits (fmtBin (wrap32 (-v)) size)) : Int) + 1)
        = ((2 ^ size - (-v).toNat : Nat) : Int) by omega]
    exact wrap32_eq_self (by unfold i32min; omega) (by unfold i32max; omega)
  have hfin : fmtBin (wrap32 ((binVal (invertBits (fmtBin (wrap32 (-v)) size)) : Int) + 1)) size
      = natToBin (2 ^ size - (-v).toNat) := by
    rw [hwr]
    exact fmtBin_natCast_eq_natToBin hbig hrlen
  exact congrArg Except.ok hfin

theorem from_str_radix_2_eq_ok {s : List Char} {val : Int}
    (h : from_str_radix_2 s = .ok val) :
    val = (binVal s : Int) ∧ binVal s ≤ 2 ^ 31 - 1 := by
  unfold from_str_radix_2 at h
  split_ifs at h with h1 h2 h3
  all_goals first
    | (exfalso
       simp at h
       done)
    | (simp only [Except.ok.injEq] at h
       refine ⟨h.symm, ?_⟩
       unfold i32max at h3
       omega)

/-! ### Claim C3 -/

/-- Claim C3 (counterexample to the universally quantified form): on the
33-character binary string `"0" ++ "1"*32` the decoder does not return the
unsigned value of the string (4294967295); it fails with a parse overflow,
because the value does not fit `i32`. -/
theorem c3_counterexample :
    calculate_twos_complement_rust ('0' :: List.replicate 32 '1')
        = .error (.ParseError .posOverflow) ∧
      binVal ('0' :: List.replicate 32 '1') = 4294967295 :=
  ⟨by decide, by decide⟩

/-- Claim C3 (amended to strings of at most 32 characters): for every
non-empty input over {0,1} of length at most 32, the decoder returns
`-(unsigned(~bits) + 1)` when the first character is 1, and the unsigned
binary value of the string otherwise. -/
theorem c3_decode_amended (s : List Char) (h1 : s ≠ [])
    (h2 : s.all is_bit = true) (h3 : s.length ≤ 32) :
    calculate_twos_complement_rust s =
      .ok (if s.head? = some '1' then -(binVal (invertBits s) : Int) - 1
           else (binVal s : Int)) :=
  decode_eq h1 h2 h3

/-- Witness for C3: the amended theorem applied to the literal "1101"
yields -3, and to "0101" yields 5. -/
theorem c3_decode_amended_witness :
    calculate_twos_complement_rust ['1', '1', '0', '1'] = .ok (-3) ∧
      calculate_twos_complement_rust ['0', '1', '0', '1'] = .ok 5 := by
  constructor
  · rw [c3_decode_amended ['1', '1', '0', '1'] (by decide) (by decide) (by decide)]
    decide
  · rw [c3_decode_amended ['0', '1', '0', '1'] (by decide) (by decide) (by decide)]
    decide

/-! ### Claim C1 -/

/-- Claim C1 (counterexample to the form quantifying over all positive
sizes): at size 32 the representable value -1 is not encoded at all — the
encoder fails with a parse overflow — so decoding the encoding cannot
recover it. -/
theorem c1_counterexample :
    decimal_to_twos_complement_rust (-1) 32 = .error (.ParseError .posOverflow) := by
  decide

/-- Claim C1 (amended to bit widths 1..31): for every size in [1,31] and
every v with -(2^(size-1)) ≤ v ≤ 2^(size-1)-1, encoding succeeds and
decoding the encoded string returns v. -/
theorem c1_round_trip_amended (size : Nat) (v : Int) (h1 : 1 ≤ size)
    (h2 : size ≤ 31) (hlo : -((2 : Int) ^ (size - 1)) ≤ v)
    (hhi : v ≤ 2 ^ (size - 1) - 1) :
    ∃ s, decimal_to_twos_complement_rust v size = Except.ok s ∧
      calculate_twos_complement_rust s = Except.ok v := by
  have hcast : ((2 : Int) ^ (size - 1)) = ((2 ^ (size - 1) : Nat) : Int) := by
    push_cast
    ring
  have hPb : (2 : Nat) ^ (size - 1) ≤ 2 ^ 30 := two_pow_mono (by omega)
  have hP1 : 1 ≤ (2 : Nat) ^ (size - 1) := Nat.two_pow_pos (size - 1)
  have hs1 : size - 1 + 1 = size := by omega
  have hX : (2 : Nat) ^ size = 2 * 2 ^ (size - 1) := by
    calc (2 : Nat) ^ size = 2 ^ (size - 1 + 1) := by rw [hs1]
    _ = 2 ^ (size - 1) * 2 := pow_succ 2 (size - 1)
    _ = 2 * 2 ^ (size - 1) := by ring
  rw [hcast] at hlo hhi
  rcases le_or_lt 0 v with h0 | h0
  · -- non-negative case
    have hmod : (size - 1) % 32 = size - 1 := Nat.mod_eq_of_lt (by omega)
    obtain ⟨hM, _⟩ := max_min_eq size
    rw [hmod, hcast] at hM
    refine ⟨fmtBin v size, encode_nonneg h1 h0 (by rw [hM]; omega), ?_⟩
    have hvlt : v.toNat < 2 ^ (size - 1) := by omega
    have hu : toUnsigned32 v = v.toNat := toUnsigned32_of_nonneg h0 (by omega)
    have hlenN : (natToBin v.toNat).length ≤ size := by
      rcases em (v.toNat = 0) with hz | hz
      · rw [hz, natToBin_zero]
        simpa using h1
      · exact natToBin_length_le hz (by omega)
    have hslen : (fmtBin v size).length = size := by
      rw [fmtBin_length, hu]
      omega
    rw [decode_eq (fmtBin_ne_nil v size) (fmtBin_all_bits v size)
      (by rw [hslen]; omega)]
    rw [if_neg (head_ne_one_of_binVal_lt
      (by rw [fmtBin_binVal, hu, hslen]; exact hvlt))]
    rw [fmtBin_binVal, hu]
    rw [show ((v.toNat : Nat) : Int) = v by omega]
  · -- negative case
    obtain ⟨henc, hlen⟩ := encode_neg_ok h1 h2 (by rw [hcast]; omega) h0
    refine ⟨_, henc, ?_⟩
    have hm1 : 1 ≤ (-v).toNat := by omega
    have hmP : (-v).toNat ≤ 2 ^ (size - 1) := by omega
    have hbval : binVal (natToBin (2 ^ size - (-v).toNat))
        = 2 ^ size - (-v).toNat := binVal_natToBin _
    rw [decode_eq (natToBin_ne_nil _) (natToBin_all_bits _)
      (by rw [hlen]; omega)]
    rw [if_pos (head_eq_one_of_binVal_ge (natToBin_all_bits _)
      (natToBin_ne_nil _) (by rw [hbval, hlen]; omega))]
    have hsum := binVal_invertBits (natToBin_all_bits (2 ^ size - (-v).toNat))
    rw [hbval, hlen] at hsum
    rw [show -(binVal (invertBits (natToBin (2 ^ size - (-v).toNat))) : Int) - 1
        = v by omega]

/-- Witness for C1: the amended round trip at size 8 and v = -5. -/
theorem c1_round_trip_amended_witness :
    ∃ s, decimal_to_twos_complement_rust (-5) 8 = Except.ok s ∧
      calculate_twos_complement_rust s = Except.ok (-5) :=
  c1_round_trip_amended 8 (-5) (by norm_num) (by norm_num) (by norm_num)
    (by norm_num)

/-! ### Claim C5 -/

/-- Claim C5: boundary behaviour of the encoder.  For every positive size,
whenever the boundary argument is representable as a 32-bit signed integer:
2^(size-1)-1 encodes successfully, 2^(size-1) overflows, -(2^(size-1))
encodes successfully, and -(2^(size-1))-1 overflows. -/
theorem c5_boundary (size : Nat) (h1 : 1 ≤ size) :
    ((2 : Int) ^ (size - 1) - 1 ≤ i32max →
      ∃ s, decimal_to_twos_complement_rust ((2 : Int) ^ (size - 1) - 1) size
        = Except.ok s) ∧
    ((2 : Int) ^ (size - 1) ≤ i32max →
      decimal_to_twos_complement_rust ((2 : Int) ^ (size - 1)) size
        = Except.error .OverflowError) ∧
    (i32min ≤ -((2 : Int) ^ (size - 1)) →
      ∃ s, decimal_to_twos_complement_rust (-((2 : Int) ^ (size - 1))) size
        = Except.ok s) ∧
    (i32min ≤ -((2 : Int) ^ (size - 1)) - 1 →
      decimal_to_twos_complement_rust (-((2 : Int) ^ (size - 1)) - 1) size
        = Except.error .OverflowError) := by
  have hcast : ((2 : Int) ^ (size - 1)) = ((2 ^ (size - 1) : Nat) : Int) := by
    push_cast
    ring
  have hP1 : 1 ≤ (2 : Nat) ^ (size - 1) := Nat.two_pow_pos (size - 1)
  refine ⟨?_, ?_, ?_, ?_⟩
  · intro h
    have hle : (2 : Nat) ^ (size - 1) ≤ 2 ^ 31 := by
      rw [hcast] at h
      unfold i32max at h
      omega
    have hsz : size ≤ 32 := by
      have := two_pow_le_iff.mp hle
      omega
    have hmod : (size - 1) % 32 = size - 1 := Nat.mod_eq_of_lt (by omega)
    obtain ⟨hM, _⟩ := max_min_eq size
    rw [hmod] at hM
    refine ⟨fmtBin ((2 : Int) ^ (size - 1) - 1) size,
      encode_nonneg h1 ?_ (by rw [hM])⟩
    have : (0 : Int) < 2 ^ (size - 1) := pow_pos (by norm_num) _
    omega
  · intro h
    have hlt : (2 : Nat) ^ (size - 1) < 2 ^ 31 := by
      rw [hcast] at h
      unfold i32max at h
      omega
    have hsz : size ≤ 31 := by
      have : ¬ ((2 : Nat) ^ 31 ≤ 2 ^ (size - 1)) := by omega
      rw [two_pow_le_iff] at this
      omega
    have hmod : (size - 1) % 32 = size - 1 := Nat.mod_eq_of_lt (by omega)
    obtain ⟨hM, _⟩ := max_min_eq size
    rw [hmod] at hM
    rw [decimal_to_twos_complement_rust, if_neg (by omega),
      if_pos (Or.inl (by rw [hM]; omega))]
  · intro h
    have hle : (2 : Nat) ^ (size - 1) ≤ 2 ^ 31 := by
      rw [hcast] at h
      unfold i32min at h
      omega
    have hsz : size ≤ 32 := by
      have := two_pow_le_iff.mp hle
      omega
    rcases em (size ≤ 31) with hle31 | hgt
    · have hneg : -((2 : Int) ^ (size - 1)) < 0 := by
        have : (0 : Int) < 2 ^ (size - 1) := pow_pos (by norm_num) _
        omega
      obtain ⟨henc, _⟩ := encode_neg_ok h1 hle31 le_rfl hneg
      exact ⟨_, henc⟩
    · have hsz32 : size = 32 := by omega
      subst hsz32
      exact ⟨'1' :: List.replicate 31 '0', by decide⟩
  · intro h
    have hlt : (2 : Nat) ^ (size - 1) < 2 ^ 31 := by
      rw [hcast] at h
      unfold i32min at h
      omega
    have hsz : size ≤ 31 := by
      have : ¬ ((2 : Nat) ^ 31 ≤ 2 ^ (size - 1)) := by omega
      rw [two_pow_le_iff] at this
      omega
    have hmod : (size - 1) % 32 = size - 1 := Nat.mod_eq_of_lt (by omega)
    obtain ⟨_, hm⟩ := max_min_eq size
    rw [hmod] at hm
    rw [decimal_to_twos_complement_rust, if_neg (by omega),
      if_pos (Or.inr (by rw [hm]; omega))]

/-- Witness for C5 at size 8: 127 and -128 encode, 128 and -129 overflow. -/
theorem c5_boundary_witness :
    (∃ s, decimal_to_twos_complement_rust 127 8 = Except.ok s) ∧
    decimal_to_twos_complement_rust 128 8 = Except.error .OverflowError ∧
    (∃ s, decimal_to_twos_complement_rust (-128) 8 = Except.ok s) ∧
    decimal_to_twos_complement_rust (-129) 8 = Except.error .OverflowError := by
  obtain ⟨a, b, c, d⟩ := c5_boundary 8 (by norm_num)
  have ha := a (by unfold i32max; norm_num)
  have hb := b (by unfold i32max; norm_num)
  have hc := c (by unfold i32min; norm_num)
  have hd := d (by unfold i32min; norm_num)
  norm_num at ha hb hc hd
  exact ⟨ha, hb, hc, hd⟩

/-! ### Claim C6 -/

/-- Claim C6: whenever the encoder returns Ok(s) for a 32-bit signed input,
the string s has length exactly `size`. -/
theorem c6_width_invariant (v : Int) (size : Nat) (s : List Char)
    (hlo : i32min ≤ v) (hhi : v ≤ i32max)
    (h : decimal_to_twos_complement_rust v size = Except.ok s) :
    s.length = size := by
  by_cases hsz0 : size ≤ 0
  · rw [decimal_to_twos_complement_rust, if_pos hsz0] at h
    exact absurd h (by simp)
  push_neg at hsz0
  have hsz : 1 ≤ size := hsz0
  obtain ⟨hM, hm⟩ := max_min_eq size
  have hcast : ((2 : Int) ^ ((size - 1) % 32)) = ((2 ^ ((size - 1) % 32) : Nat) : Int) := by
    push_cast
    ring
  have hkle : (size - 1) % 32 ≤ size - 1 := Nat.mod_le (size - 1) 32
  have hk31 : (size - 1) % 32 ≤ 31 := by omega
  have hP1 : 1 ≤ (2 : Nat) ^ ((size - 1) % 32) := Nat.two_pow_pos _
  have hPle31 : (2 : Nat) ^ ((size - 1) % 32) ≤ 2 ^ 31 := two_pow_mono hk31
  have hPsz : (2 : Nat) ^ ((size - 1) % 32 + 1) ≤ 2 ^ size := two_pow_mono (by omega)
  by_cases hrange : v > max_positive size ∨ v < min_negative size
  · rw [decimal_to_twos_complement_rust, if_neg (by omega), if_pos hrange] at h
    exact absurd h (by simp)
  push_neg at hrange
  obtain ⟨hmax, hmin⟩ := hrange
  have hmaxN : v ≤ ((2 ^ ((size - 1) % 32) : Nat) : Int) - 1 := by
    rw [hM, hcast] at hmax
    exact hmax
  have hminN : -((2 ^ ((size - 1) % 32) : Nat) : Int) ≤ v := by
    rw [hm, hcast] at hmin
    exact hmin
  by_cases h0 : 0 ≤ v
  · -- non-negative branch
    rw [encode_nonneg hsz h0 hmax] at h
    simp only [Except.ok.injEq] at h
    subst h
    have hu : toUnsigned32 v = v.toNat :=
      toUnsigned32_of_nonneg h0 (by unfold i32max at hhi; omega)
    have hlenN : (natToBin v.toNat).length ≤ size := by
      rcases em (v.toNat = 0) with hz | hz
      · rw [hz, natToBin_zero]
        simpa using hsz
      · refine le_trans (natToBin_length_le hz ?_) (by omega : (size - 1) % 32 ≤ size)
        omega
    rw [fmtBin_length, hu]
    omega
  · -- negative branch
    push_neg at h0
    have hmk : (-v).toNat ≤ 2 ^ ((size - 1) % 32) := by omega
    obtain ⟨hblen, hbval⟩ := fmtBin_neg_facts hsz hlo h0 hmk
    have hsum := binVal_invertBits (fmtBin_all_bits (wrap32 (-v)) size)
    rw [hblen, hbval] at hsum
    rw [encode_neg_branch hsz hmax hmin h0] at h
    rcases hparse : from_str_radix_2 (invertBits (fmtBin (wrap32 (-v)) size))
        with e | val
    · rw [hparse] at h
      exact absurd h (by simp)
    · rw [hparse] at h
      simp only [Except.ok.injEq] at h
      obtain ⟨hval, hocsmall⟩ := from_str_radix_2_eq_ok hparse
      subst h
      -- the parse bound forces the width to be at most 32
      have hm1 : 1 ≤ (-v).toNat := by omega
      have hsize32 : size ≤ 32 := by
        have h2 : (2 : Nat) ^ size ≤ 2 ^ 31 + 2 ^ 31 := by omega
        have h3 : (2 : Nat) ^ size ≤ 2 ^ 32 := by
          have : (2 : Nat) ^ 31 + 2 ^ 31 = 2 ^ 32 := by norm_num
          omega
        have := two_pow_le_iff.mp h3
        omega
      have hrlt : 2 ^ size - (-v).toNat < 2 ^ size := by omega
      have hrne : 2 ^ size - (-v).toNat ≠ 0 := by omega
      have hr32 : 2 ^ size - (-v).toNat < 2 ^ 32 :=
        lt_of_lt_of_le hrlt (two_pow_mono hsize32)
      have hrlen : (natToBin (2 ^ size - (-v).toNat)).length ≤ size :=
        natToBin_length_le hrne hrlt
      have htu : toUnsigned32 (wrap32 (val + 1)) = 2 ^ size - (-v).toNat := by
        rw [toUnsigned32_wrap32]
        rw [show val + 1 = ((2 ^ size - (-v).toNat : Nat) : Int) by omega]
        unfold toUnsigned32
        omega
      rw [fmtBin_length, htu]
      omega

/-- Witness for C6: the width invariant at v = 5, size = 8. -/
theorem c6_width_invariant_witness :
    decimal_to_twos_complement_rust 5 8
        = Except.ok ['0', '0', '0', '0', '0', '1', '0', '1'] ∧
      (['0', '0', '0', '0', '0', '1', '0', '1'] : List Char).length = 8 :=
  ⟨by decide, c6_width_invariant 5 8 ['0', '0', '0', '0', '0', '1', '0', '1']
    (by unfold i32min; norm_num) (by unfold i32max; norm_num) (by decide)⟩

/-! ### Claim C10 -/

/-- Claim C10 (counterexample to "every negative decimal input"): at the
single input -2^31 with size 32 the encoder does return a 32-character
binary string, because the wrapping negation maps -2^31 to itself and the
re-parse of the inverted string (value 2^31 - 1) succeeds. -/
theorem c10_counterexample :
    decimal_to_twos_complement_rust (-(2 ^ 31)) 32
        = Except.ok ('1' :: List.replicate 31 '0') ∧
      ('1' :: List.replicate 31 '0').length = 32 :=
  ⟨by decide, by decide⟩

/-- Claim C10 (amended to exclude -2^31): for size 32 every negative input
strictly above i32::MIN makes the encoder fail with ParseError, because the
inverted 32-character magnitude string re-parses to a value above i32::MAX. -/
theorem c10_negative_size32_amended (v : Int) (h1 : i32min < v) (h2 : v < 0) :
    decimal_to_twos_complement_rust v 32
      = Except.error (.ParseError .posOverflow) := by
  have hsz : 1 ≤ 32 := by norm_num
  obtain ⟨hM, hm⟩ := max_min_eq 32
  norm_num at hM hm
  have h1m : -(2 ^ 31) < v := by
    unfold i32min at h1
    exact h1
  have hmax : v ≤ max_positive 32 := by
    rw [hM]
    omega
  have hmin : min_negative 32 ≤ v := by
    rw [hm]
    omega
  have hmk : (-v).toNat ≤ 2 ^ ((32 - 1) % 32) := by
    norm_num
    omega
  obtain ⟨hblen, hbval⟩ := fmtBin_neg_facts hsz (le_of_lt h1) h2 hmk
  have hsum := binVal_invertBits (fmtBin_all_bits (wrap32 (-v)) 32)
  rw [hblen, hbval] at hsum
  have hocne : invertBits (fmtBin (wrap32 (-v)) 32) ≠ [] := by
    intro hnil
    have hl := congrArg List.length hnil
    rw [invertBits_length, hblen] at hl
    simp at hl
  have hbig : 2 ^ 31 ≤ binVal (invertBits (fmtBin (wrap32 (-v)) 32)) := by
    have hmlt : (-v).toNat ≤ 2 ^ 31 - 1 := by omega
    omega
  rw [encode_neg_branch hsz hmax hmin h2]
  rw [from_str_radix_2_overflow hocne (invertBits_all_bits _) hbig]

/-- Witness for C10: the amended statement at v = -5. -/
theorem c10_negative_size32_amended_witness :
    decimal_to_twos_complement_rust (-5) 32
      = Except.error (.ParseError .posOverflow) :=
  c10_negative_size32_amended (-5) (by unfold i32min; norm_num) (by norm_num)

/-! ### Claim C2 -/

/-- Claim C2 / code bug exhibit: at latitude 82 (inside the spec domain
[-80, 84)) the band index is 20, but the filtered letter list has only 20
entries (indices 0..19), so the lookup panics instead of returning Ok;
`calculate_utm_zone` crashes there as well. -/
theorem c2_band_lookup_crash :
    get_mgrs_latitude_band 82 = RustResult.crashed ∧
      calculate_utm_zone 82 15 = RustResult.crashed ∧
      bands.length = 20 ∧
      castUsize (Rat.floor (((82 : ℚ) + 80) / 8)) = 20 := by
  refine ⟨?_, ?_, by decide, ?_⟩
  · simp only [get_mgrs_latitude_band, ratFloor_eq_intFloor]
    norm_num
    decide
  · simp only [calculate_utm_zone, get_mgrs_latitude_band, zone_number_calc,
      ratFloor_eq_intFloor]
    norm_num
    decide
  · rw [ratFloor_eq_intFloor]
    norm_num
    decide

/-! ### Claim C8 -/

/-- Claim C8: the range-check order of calculate_utm_zone.  A latitude
outside [-90,90] reports InvalidLatitude regardless of the longitude; with
the latitude in range, a longitude outside [-180,180] reports
InvalidLongitude; with both in range but the latitude outside the band
domain [-80,84), the band-stage InvalidLatitude error is returned. -/
theorem c8_error_order (lat lon : ℚ) :
    ((lat < -90 ∨ 90 < lat) →
      calculate_utm_zone lat lon = .err (.InvalidLatitude lat)) ∧
    (-90 ≤ lat → lat ≤ 90 → (lon < -180 ∨ 180 < lon) →
      calculate_utm_zone lat lon = .err (.InvalidLongitude lon)) ∧
    (-90 ≤ lat → lat ≤ 90 → -180 ≤ lon → lon ≤ 180 → (lat < -80 ∨ 84 ≤ lat) →
      calculate_utm_zone lat lon = .err (.InvalidLatitude lat)) := by
  refine ⟨?_, ?_, ?_⟩
  · intro h
    rw [calculate_utm_zone, if_pos h]
  · intro h1 h2 h3
    rw [calculate_utm_zone, if_neg (by push_neg; exact ⟨h1, h2⟩), if_pos h3]
  · intro h1 h2 h3 h4 h5
    rw [calculate_utm_zone, if_neg (by push_neg; exact ⟨h1, h2⟩),
      if_neg (by push_neg; exact ⟨h3, h4⟩)]
    rw [get_mgrs_latitude_band, if_pos ?hc]
    case hc =>
      rcases h5 with h | h
      · exact Or.inl h
      · exact Or.inr h

/-- Witness for C8: the three error stages at concrete inputs. -/
theorem c8_error_order_witness :
    calculate_utm_zone 100 200 = .err (.InvalidLatitude 100) ∧
      calculate_utm_zone 0 181 = .err (.InvalidLongitude 181) ∧
      calculate_utm_zone 85 0 = .err (.InvalidLatitude 85) :=
  ⟨(c8_error_order 100 200).1 (by norm_num),
    (c8_error_order 0 181).2.1 (by norm_num) (by norm_num) (by norm_num),
    (c8_error_order 85 0).2.2 (by norm_num) (by norm_num) (by norm_num)
      (by norm_num) (by norm_num)⟩

/-! ### Claim C9 -/

theorem band_mem_of_ok {lat : ℚ} {c : Char}
    (h : get_mgrs_latitude_band lat = .ok c) : c ∈ bands := by
  unfold get_mgrs_latitude_band at h
  split_ifs at h
  rcases hg : bands[castUsize (Rat.floor ((lat + 80) / 8))]? with _ | c2
  · rw [hg] at h
    exact absurd h (by simp)
  · rw [hg] at h
    simp only [RustResult.ok.injEq] at h
    subst h
    exact List.getElem?_mem hg

/-- Claim C9: output invariant of calculate_utm_zone — every Ok result has
a zone number in [1,60] and a band letter in C..X that is neither I nor O. -/
theorem c9_output_invariant (lat lon : ℚ) (z : Nat) (band : Char)
    (h : calculate_utm_zone lat lon = .ok (z, band)) :
    1 ≤ z ∧ z ≤ 60 ∧ 'C' ≤ band ∧ band ≤ 'X' ∧ band ≠ 'I' ∧ band ≠ 'O' := by
  unfold calculate_utm_zone at h
  split_ifs at h with h1 h2
  rcases hb : get_mgrs_latitude_band lat with _ | e | c <;> rw [hb] at h
  · exact absurd h (by simp)
  · exact absurd h (by simp)
  · simp only [RustResult.ok.injEq, Prod.mk.injEq] at h
    obtain ⟨hz, hc⟩ := h
    subst hz
    subst hc
    have hzb : 1 ≤ zone_number_calc lat lon ∧ zone_number_calc lat lon ≤ 60 := by
      unfold zone_number_calc
      split_ifs
      · exact ⟨by norm_num, by norm_num⟩
      · exact ⟨by norm_num, by norm_num⟩
      · exact ⟨by norm_num, by norm_num⟩
      · exact ⟨by norm_num, by norm_num⟩
      · have := Nat.mod_lt (castU32 (Rat.floor ((lon + 180) / 6)))
          (show 0 < 60 by norm_num)
        omega
    have hprop : ∀ x ∈ bands, 'C' ≤ x ∧ x ≤ 'X' ∧ x ≠ 'I' ∧ x ≠ 'O' := by decide
    obtain ⟨p1, p2, p3, p4⟩ := hprop c (band_mem_of_ok hb)
    exact ⟨hzb.1, hzb.2, p1, p2, p3, p4⟩

/-- Witness for C9 at (40, -75): the result (18, 'T') satisfies the
invariant. -/
theorem c9_output_invariant_witness :
    1 ≤ 18 ∧ 18 ≤ 60 ∧ 'C' ≤ 'T' ∧ 'T' ≤ 'X' ∧ 'T' ≠ 'I' ∧ 'T' ≠ 'O' :=
  c9_output_invariant 40 (-75) 18 'T' (by
    simp only [calculate_utm_zone, get_mgrs_latitude_band, zone_number_calc,
      ratFloor_eq_intFloor]
    norm_num
    decide)

/-! ### Claim C4 -/

/-- Claim C4: on the full validated domain, the zone number computed by
`calculate_utm_zone` (that is, `zone_number_calc`) equals the zone formula
exactly as the spec states it (`specZone`), and every Ok result carries
that zone number. -/
theorem c4_zone_number (lat lon : ℚ) (hla1 : -90 ≤ lat) (hla2 : lat ≤ 90)
    (hlo1 : -180 ≤ lon) (hlo2 : lon ≤ 180) :
    ((zone_number_calc lat lon : Nat) : Int) = specZone lat lon ∧
      ∀ z band, calculate_utm_zone lat lon = .ok (z, band) →
        z = zone_number_calc lat lon := by
  constructor
  · have hx0 : 0 ≤ ⌊(lon + 180) / 6⌋ :=
      Int.floor_nonneg.mpr (div_nonneg (by linarith) (by norm_num))
    have hx60 : ⌊(lon + 180) / 6⌋ ≤ 60 := by
      have hle : (lon + 180) / 6 ≤ 60 := by
        rw [div_le_iff₀ (show (0 : ℚ) < 6 by norm_num)]
        linarith
      calc ⌊(lon + 180) / 6⌋ ≤ ⌊(60 : ℚ)⌋ := Int.floor_le_floor hle
        _ = 60 := by norm_num
    unfold zone_number_calc specZone
    rw [ratFloor_eq_intFloor]
    split_ifs
    · norm_num
    · norm_num
    · norm_num
    · norm_num
    · unfold castU32
      rw [if_neg (by omega)]
      push_cast
      omega
  · intro z band h
    unfold calculate_utm_zone at h
    split_ifs at h
    rcases hb : get_mgrs_latitude_band lat with _ | e | c <;> rw [hb] at h
    · exact absurd h (by simp)
    · exact absurd h (by simp)
    · simp only [RustResult.ok.injEq, Prod.mk.injEq] at h
      exact h.1.symm

/-- Witness for C4: at (60, 5) — the Norway exception — the function
returns zone 32, and the implementation zone agrees with the spec
formula. -/
theorem c4_zone_number_witness :
    calculate_utm_zone 60 5 = RustResult.ok (32, 'V') ∧
      ((zone_number_calc 60 5 : Nat) : Int) = specZone 60 5 := by
  constructor
  · simp only [calculate_utm_zone, get_mgrs_latitude_band, zone_number_calc,
      ratFloor_eq_intFloor]
    norm_num
    decide
  · exact (c4_zone_number 60 5 (by norm_num) (by norm_num) (by norm_num)
      (by norm_num)).1
